import Mathlib

/-!
# Verification of the NLSAM denoiser core (`nlsam/denoiser.py`)

This file gives a shallow embedding of the block-processing and
iterative-reweighting engine of the NLSAM denoiser and proves the frozen
claims about it.  Python floats are modelled as `ℚ`, numpy arrays as nested
lists or extent-carrying value functions, and the external solvers
(`spams.lasso`, `spams.trainDL`) as abstract function parameters.  Repository
utilities that are not part of the provided source (`im2col_nd`, `col2im_nd`
from `nlsam.utils`) are modelled from the specification and marked as such.
-/

namespace Nlsam

/-! ## Greedy set cover (`greedy_set_finder`, denoiser.py lines 182-209)

The Python function converts each input tuple to a `set`, so the model works
directly with `Finset ℕ`.  The inner `for i, s in enumerate(sets)` loop that
finds the set with the largest intersection against the remaining universe is
`findBestAux`; the outer `while len(universe) != 0` loop is `greedyLoop`. -/

/-- The running-maximum scan of `greedy_set_finder`'s inner loop:
`max_intersect` starts at `0`, `element` is unset, and each set whose
intersection with the universe is *strictly* larger than the running maximum
replaces the current choice (so ties keep the first-encountered index). -/
def findBestAux (u : Finset ℕ) : List (Finset ℕ) → ℕ → ℕ → Option ℕ → ℕ × Option ℕ
  | [], _, m, e => (m, e)
  | s :: rest, i, m, e =>
    if (s ∩ u).card > m then findBestAux u rest (i + 1) (s ∩ u).card (some i)
    else findBestAux u rest (i + 1) m e

/-- One pass of the inner loop of `greedy_set_finder` over all input sets,
with `max_intersect = 0` and no element chosen initially. -/
def findBest (sets : List (Finset ℕ)) (u : Finset ℕ) : ℕ × Option ℕ :=
  findBestAux u sets 0 0 none

theorem findBestAux_fst_ge (u : Finset ℕ) (l : List (Finset ℕ)) (i m : ℕ) (e : Option ℕ) :
    m ≤ (findBestAux u l i m e).1 := by
  induction l generalizing i m e with
  | nil => exact le_refl _
  | cons s rest ih =>
    simp only [findBestAux]
    by_cases h : (s ∩ u).card > m
    · simp only [h, if_pos]
      exact le_trans (le_of_lt h) (ih _ _ _)
    · simp only [h, if_neg, not_false_iff]
      exact ih _ _ _

theorem findBestAux_fst_bound (u : Finset ℕ) (l : List (Finset ℕ)) (i m : ℕ) (e : Option ℕ) :
    ∀ j < l.length, ((l.getD j ∅) ∩ u).card ≤ (findBestAux u l i m e).1 := by
  induction l generalizing i m e with
  | nil => intro j hj; simp at hj
  | cons s rest ih =>
    intro j hj
    simp only [findBestAux]
    by_cases h : (s ∩ u).card > m
    · simp only [h, if_pos]
      cases j with
      | zero =>
        simpa using findBestAux_fst_ge u rest (i + 1) (s ∩ u).card (some i)
      | succ j' =>
        exact ih _ _ _ j' (by simpa using hj)
    · simp only [h, if_neg, not_false_iff]
      cases j with
      | zero =>
        simp only [List.getD_cons_zero]
        exact le_trans (le_of_not_lt h) (findBestAux_fst_ge u rest (i + 1) m e)
      | succ j' =>
        exact ih _ _ _ j' (by simpa using hj)

/-- Characterisation of the scan result: either nothing beat the initial
running maximum (and the initial candidate survives), or the first index
attaining the final maximum was chosen, and every set scanned before it had a
strictly smaller intersection. -/
theorem findBestAux_snd_spec (u : Finset ℕ) (l : List (Finset ℕ)) (i m : ℕ) (e : Option ℕ) :
    ((findBestAux u l i m e).1 = m ∧ (findBestAux u l i m e).2 = e ∧
      ∀ j < l.length, ((l.getD j ∅) ∩ u).card ≤ m) ∨
    (m < (findBestAux u l i m e).1 ∧
      ∃ j < l.length, (findBestAux u l i m e).2 = some (i + j) ∧
        ((l.getD j ∅) ∩ u).card = (findBestAux u l i m e).1 ∧
        ∀ j' < j, ((l.getD j' ∅) ∩ u).card < (findBestAux u l i m e).1) := by
  induction l generalizing i m e with
  | nil =>
    left
    refine ⟨rfl, rfl, ?_⟩
    intro j hj; simp at hj
  | cons s rest ih =>
    simp only [findBestAux]
    by_cases h : (s ∩ u).card > m
    · simp only [h, if_pos]
      right
      rcases ih (i + 1) (s ∩ u).card (some i) with ⟨h1, h2, h3⟩ | ⟨h1, j, hj, h2, h3, h4⟩
      · refine ⟨by omega, 0, by simp, ?_, ?_, ?_⟩
        · simpa using h2
        · simpa using h1.symm
        · intro j' hj'; omega
      · refine ⟨by omega, j + 1, by simpa using hj, ?_, ?_, ?_⟩
        · simpa [Nat.add_assoc, Nat.add_comm 1 j] using h2
        · simpa using h3
        · intro j' hj'
          cases j' with
          | zero => simpa using h1
          | succ j'' => exact h4 j'' (by omega)
    · simp only [h, if_neg, not_false_iff]
      rcases ih (i + 1) m e with ⟨h1, h2, h3⟩ | ⟨h1, j, hj, h2, h3, h4⟩
      · left
        refine ⟨h1, h2, ?_⟩
        intro j hj
        cases j with
        | zero => simpa using le_of_not_lt h
        | succ j' => exact h3 j' (by simpa using hj)
      · right
        refine ⟨h1, j + 1, by simpa using hj, ?_, ?_, ?_⟩
        · simpa [Nat.add_assoc, Nat.add_comm 1 j] using h2
        · simpa using h3
        · intro j' hj'
          cases j' with
          | zero =>
            simp only [List.getD_cons_zero]
            exact lt_of_le_of_lt (le_of_not_lt h) h1
          | succ j'' => exact h4 j'' (by omega)

/-- If the inner loop chose an element, that element is a valid index whose
set meets the universe. -/
theorem findBest_some (sets : List (Finset ℕ)) (u : Finset ℕ) (i : ℕ)
    (h : (findBest sets u).2 = some i) :
    i < sets.length ∧ 0 < ((sets.getD i ∅) ∩ u).card := by
  rcases findBestAux_snd_spec u sets 0 0 none with ⟨_, h2, _⟩ | ⟨h1, j, hj, h2, h3, _⟩
  · rw [findBest] at h; rw [h2] at h; exact absurd h (by simp)
  · rw [findBest] at h; rw [h2] at h
    have hji : j = i := by simpa using h
    subst hji
    exact ⟨hj, by omega⟩

/-- If the inner loop chose no element, every set misses the universe. -/
theorem findBest_none (sets : List (Finset ℕ)) (u : Finset ℕ)
    (h : (findBest sets u).2 = none) :
    ∀ j < sets.length, ((sets.getD j ∅) ∩ u).card = 0 := by
  rcases findBestAux_snd_spec u sets 0 0 none with ⟨_, _, h3⟩ | ⟨_, j, _, h2, _, _⟩
  · intro j hj; exact Nat.le_zero.mp (h3 j hj)
  · rw [findBest] at h; rw [h2] at h; exact absurd h (by simp)

/-- The chosen set maximises the intersection with the universe, and every
earlier set has a strictly smaller intersection (first-seen tie-break). -/
theorem findBest_max (sets : List (Finset ℕ)) (u : Finset ℕ) (i : ℕ)
    (h : (findBest sets u).2 = some i) :
    (∀ j < sets.length, ((sets.getD j ∅) ∩ u).card ≤ ((sets.getD i ∅) ∩ u).card) ∧
    (∀ j < i, ((sets.getD j ∅) ∩ u).card < ((sets.getD i ∅) ∩ u).card) := by
  rcases findBestAux_snd_spec u sets 0 0 none with ⟨_, h2, _⟩ | ⟨_, j, hj, h2, h3, h4⟩
  · rw [findBest] at h; rw [h2] at h; exact absurd h (by simp)
  · rw [findBest] at h; rw [h2] at h
    have hij : j = i := by simpa using h
    subst hij
    constructor
    · intro j' hj'
      rw [h3]
      exact findBestAux_fst_bound u sets 0 0 none j' hj'
    · intro j' hj'
      rw [h3]
      exact h4 j' hj'

/-- The `while len(universe) != 0` loop of `greedy_set_finder`: pick the set
with the largest intersection against the remaining universe, append it to
the output, and remove its indices from the universe.  (The `none` branch
models the situation where no set meets the universe; in `greedy_set_finder`
the universe is always contained in the union of the sets, so that branch is
never taken there.) -/
def greedyLoop (sets : List (Finset ℕ)) (u : Finset ℕ) : List (Finset ℕ) :=
  if hu : u = ∅ then []
  else
    match hb : (findBest sets u).2 with
    | none => []
    | some i =>
      (sets.getD i ∅) :: greedyLoop sets (u \ sets.getD i ∅)
termination_by u.card
decreasing_by
  have h := findBest_some sets u i hb
  have hne : ((sets.getD i ∅) ∩ u).Nonempty := Finset.card_pos.mp h.2
  have hsub : (sets.getD i ∅) ∩ u ⊆ u := Finset.inter_subset_right
  have : u \ (sets.getD i ∅) = u \ ((sets.getD i ∅) ∩ u) := by
    rw [Finset.sdiff_inter_self_right]
  rw [this]
  exact Finset.card_lt_card (Finset.sdiff_ssubset hsub hne)

/-- `universe = set(); for s in sets: universe = universe.union(s)` -/
def listUnion (sets : List (Finset ℕ)) : Finset ℕ := sets.foldl (· ∪ ·) ∅

/-- `greedy_set_finder` (denoiser.py lines 182-209): greedy set cover.  Input
tuples are modelled as the finite sets the Python code converts them to;
output tuples likewise. -/
def greedy_set_finder (sets : List (Finset ℕ)) : List (Finset ℕ) :=
  greedyLoop sets (listUnion sets)

theorem mem_foldl_union (l : List (Finset ℕ)) (init : Finset ℕ) (x : ℕ) :
    x ∈ l.foldl (· ∪ ·) init ↔ x ∈ init ∨ ∃ s ∈ l, x ∈ s := by
  induction l generalizing init with
  | nil => simp
  | cons s rest ih =>
    simp only [List.foldl_cons, ih, Finset.mem_union, List.mem_cons]
    constructor
    · rintro ((h | h) | ⟨t, ht, hx⟩)
      · exact Or.inl h
      · exact Or.inr ⟨s, Or.inl rfl, h⟩
      · exact Or.inr ⟨t, Or.inr ht, hx⟩
    · rintro (h | ⟨t, (rfl | ht), hx⟩)
      · exact Or.inl (Or.inl h)
      · exact Or.inl (Or.inr hx)
      · exact Or.inr ⟨t, ht, hx⟩

theorem mem_listUnion (sets : List (Finset ℕ)) (x : ℕ) :
    x ∈ listUnion sets ↔ ∃ s ∈ sets, x ∈ s := by
  simp [listUnion, mem_foldl_union]

/-- Every set emitted by the greedy loop is one of the input sets. -/
theorem greedyLoop_mem (sets : List (Finset ℕ)) (u : Finset ℕ) :
    ∀ s ∈ greedyLoop sets u, s ∈ sets := by
  induction u using Finset.strongInduction with
  | _ u ih =>
    intro s hs
    rw [greedyLoop] at hs
    by_cases hu : u = ∅
    · simp [hu] at hs
    · simp only [hu, dif_neg, not_false_iff] at hs
      revert hs
      split
      · intro hs; simp at hs
      · next i hb =>
        intro hs
        rcases List.mem_cons.mp hs with rfl | hs'
        · have h := findBest_some sets u i hb
          rw [List.getD_eq_getElem sets ∅ h.1]
          exact List.getElem_mem _
        · have h := findBest_some sets u i hb
          have hne : ((sets.getD i ∅) ∩ u).Nonempty := Finset.card_pos.mp h.2
          have hss : u \ sets.getD i ∅ ⊂ u := by
            rw [show u \ (sets.getD i ∅) = u \ ((sets.getD i ∅) ∩ u) by
              rw [Finset.sdiff_inter_self_right]]
            exact Finset.sdiff_ssubset Finset.inter_subset_right hne
          exact ih _ hss s hs'

/-- The universe handed to the greedy loop ends up covered by its output. -/
theorem greedyLoop_covers (sets : List (Finset ℕ)) (u : Finset ℕ)
    (hsub : u ⊆ listUnion sets) :
    u ⊆ listUnion (greedyLoop sets u) := by
  induction u using Finset.strongInduction with
  | _ u ih =>
    rw [greedyLoop]
    by_cases hu : u = ∅
    · subst hu; simp [dif_pos]
    · simp only [hu, dif_neg, not_false_iff]
      split
      · next hb =>
        exfalso
        rcases Finset.nonempty_iff_ne_empty.mpr hu with ⟨x, hx⟩
        rcases (mem_listUnion sets x).mp (hsub hx) with ⟨s, hs, hxs⟩
        rcases List.get_of_mem hs with ⟨⟨j, hj⟩, rfl⟩
        have hcard := findBest_none sets u hb j hj
        rw [List.getD_eq_get sets ∅ hj] at hcard
        have : x ∈ sets.get ⟨j, hj⟩ ∩ u := Finset.mem_inter.mpr ⟨hxs, hx⟩
        rw [Finset.card_eq_zero.mp hcard] at this
        simp at this
      · next i hb =>
        have h := findBest_some sets u i hb
        have hne : ((sets.getD i ∅) ∩ u).Nonempty := Finset.card_pos.mp h.2
        have hss : u \ sets.getD i ∅ ⊂ u := by
          rw [show u \ (sets.getD i ∅) = u \ ((sets.getD i ∅) ∩ u) by
            rw [Finset.sdiff_inter_self_right]]
          exact Finset.sdiff_ssubset Finset.inter_subset_right hne
        have hrec := ih _ hss (le_trans (Finset.sdiff_subset) hsub)
        intro x hx
        rw [mem_listUnion]
        by_cases hxs : x ∈ sets.getD i ∅
        · exact ⟨sets.getD i ∅, List.mem_cons_self _ _, hxs⟩
        · have : x ∈ u \ sets.getD i ∅ := Finset.mem_sdiff.mpr ⟨hx, hxs⟩
          rcases (mem_listUnion _ x).mp (hrec this) with ⟨s, hs, hxs'⟩
          exact ⟨s, List.mem_cons_of_mem _ hs, hxs'⟩

/-- **C1**: Cover completeness — the union of the indices of the work items
emitted by `greedy_set_finder` equals the union of the indices of the input
work items: every direction index present in the input is covered by at
least one output work item. -/
theorem greedy_cover_completeness (sets : List (Finset ℕ)) :
    listUnion (greedy_set_finder sets) = listUnion sets := by
  apply Finset.Subset.antisymm
  · intro x hx
    rcases (mem_listUnion _ x).mp hx with ⟨s, hs, hxs⟩
    have : s ∈ sets := greedyLoop_mem sets (listUnion sets) s hs
    exact (mem_listUnion sets x).mpr ⟨s, this, hxs⟩
  · exact greedyLoop_covers sets (listUnion sets) (le_refl _)

/-- **C2**: Greedy step maximality with first-seen tie-break — whenever the
remaining universe is nonempty (and covered by the input sets, as it always
is inside `greedy_set_finder`), the loop appends the work item covering the
largest number of not-yet-covered indices, and every work item encountered
earlier in input order covers strictly fewer not-yet-covered indices. -/
theorem greedy_step_maximality (sets : List (Finset ℕ)) (u : Finset ℕ)
    (hne : u.Nonempty) (hsub : u ⊆ listUnion sets) :
    ∃ i, i < sets.length ∧
      greedyLoop sets u = (sets.getD i ∅) :: greedyLoop sets (u \ sets.getD i ∅) ∧
      (∀ j < sets.length, ((sets.getD j ∅) ∩ u).card ≤ ((sets.getD i ∅) ∩ u).card) ∧
      (∀ j < i, ((sets.getD j ∅) ∩ u).card < ((sets.getD i ∅) ∩ u).card) := by
  have hu : u ≠ ∅ := Finset.nonempty_iff_ne_empty.mp hne
  rcases he : (findBest sets u).2 with _ | i
  · exfalso
    rcases hne with ⟨x, hx⟩
    rcases (mem_listUnion sets x).mp (hsub hx) with ⟨s, hs, hxs⟩
    rcases List.get_of_mem hs with ⟨⟨j, hj⟩, rfl⟩
    have hcard := findBest_none sets u he j hj
    rw [List.getD_eq_get sets ∅ hj] at hcard
    have : x ∈ sets.get ⟨j, hj⟩ ∩ u := Finset.mem_inter.mpr ⟨hxs, hx⟩
    rw [Finset.card_eq_zero.mp hcard] at this
    simp at this
  · refine ⟨i, (findBest_some sets u i he).1, ?_, (findBest_max sets u i he).1,
      (findBest_max sets u i he).2⟩
    rw [greedyLoop]
    simp only [hu, dif_neg, not_false_iff]
    split
    · next hb => rw [he] at hb; exact absurd hb (by simp)
    · next i' hb =>
      rw [he] at hb
      have : i' = i := by simpa using hb.symm
      subst this
      rfl

/-- Witness for C2 at a concrete input: `sets = [{0}, {0, 1}]`,
`u = {0, 1}`; the loop picks the second set (it covers 2 > 1 uncovered
indices). -/
theorem greedy_step_maximality_witness :
    ∃ i, i < ([{0}, {0, 1}] : List (Finset ℕ)).length ∧
      greedyLoop [{0}, {0, 1}] {0, 1} =
        (([{0}, {0, 1}] : List (Finset ℕ)).getD i ∅) ::
          greedyLoop [{0}, {0, 1}] ({0, 1} \ ([{0}, {0, 1}] : List (Finset ℕ)).getD i ∅) ∧
      (∀ j < ([{0}, {0, 1}] : List (Finset ℕ)).length,
        ((([{0}, {0, 1}] : List (Finset ℕ)).getD j ∅) ∩ {0, 1}).card ≤
          ((([{0}, {0, 1}] : List (Finset ℕ)).getD i ∅) ∩ {0, 1}).card) ∧
      (∀ j < i, ((([{0}, {0, 1}] : List (Finset ℕ)).getD j ∅) ∩ {0, 1}).card <
          ((([{0}, {0, 1}] : List (Finset ℕ)).getD i ∅) ∩ {0, 1}).card) :=
  greedy_step_maximality [{0}, {0, 1}] {0, 1} (by decide) (by decide)

/-! ## Final per-direction division (`nlsam_denoise`, denoiser.py lines 155-161)

After the per-work-item loop, the accumulated output is divided channel-wise
by `divider = np.insert(np.bincount(np.array(indexes).ravel()), b0_loc,
len(indexes))`. -/

/-- `np.bincount`: occurrence counts of the values `0 .. max` of the input
(and the empty array for empty input). -/
def bincount (l : List ℕ) : List ℕ :=
  if l = [] then [] else (List.range (l.foldr max 0 + 1)).map fun v => l.count v

/-- `np.insert` of one value at one position of a flat integer array. -/
def npInsert (l : List ℕ) (pos v : ℕ) : List ℕ := l.take pos ++ v :: l.drop pos

/-- `divider` of `nlsam_denoise` (lines 155-156): per-direction occurrence
counts of the selected work items' indices, with the total work-item count
inserted at the b0 position. -/
def finalDivider (indexes : List (List ℕ)) (b0_loc : ℕ) : List ℕ :=
  npInsert (bincount indexes.flatten) b0_loc indexes.length

/-- The channel-wise division of lines 158-161: accumulated channel `c`
divided by `divider[c]`. -/
def dividedOutput (acc : ℕ → ℚ) (indexes : List (List ℕ)) (b0_loc : ℕ) (c : ℕ) : ℚ :=
  acc c / ((finalDivider indexes b0_loc).getD c 0 : ℚ)

theorem le_foldr_max (l : List ℕ) (x : ℕ) (hx : x ∈ l) : x ≤ l.foldr max 0 := by
  induction l with
  | nil => simp at hx
  | cons a t ih =>
    rcases List.mem_cons.mp hx with rfl | hx'
    · exact le_max_left _ _
    · exact le_trans (ih hx') (le_max_right _ _)

theorem foldr_max_le (l : List ℕ) (m : ℕ) (h : ∀ x ∈ l, x ≤ m) : l.foldr max 0 ≤ m := by
  induction l with
  | nil => simp
  | cons a t ih =>
    simp only [List.foldr_cons, max_le_iff]
    exact ⟨h a (List.mem_cons_self a t), ih fun x hx => h x (List.mem_cons_of_mem a hx)⟩

theorem bincount_length (l : List ℕ) (n : ℕ) (hne : l ≠ [])
    (hb : ∀ x ∈ l, x < n) (hc : ∀ d < n, d ∈ l) : (bincount l).length = n := by
  rcases l with _ | ⟨a, t⟩
  · exact absurd rfl hne
  · have hn : 0 < n := lt_of_le_of_lt (Nat.zero_le a) (hb a (List.mem_cons_self a t))
    have h1 : (a :: t).foldr max 0 ≤ n - 1 :=
      foldr_max_le _ _ fun x hx => by have := hb x hx; omega
    have h2 : n - 1 ≤ (a :: t).foldr max 0 := le_foldr_max _ _ (hc (n - 1) (by omega))
    simp only [bincount, if_neg (List.cons_ne_nil a t), List.length_map, List.length_range]
    omega

theorem bincount_getD (l : List ℕ) (c : ℕ) (hc : c < (bincount l).length) :
    (bincount l).getD c 0 = l.count c := by
  by_cases hne : l = []
  · subst hne; simp [bincount] at hc
  · simp only [bincount, if_neg hne, List.length_map, List.length_range] at hc ⊢
    rw [List.getD_eq_getElem _ _ (by simpa using hc)]
    simp

theorem count_flatten_nodup (L : List (List ℕ)) (h : ∀ t ∈ L, t.Nodup) (v : ℕ) :
    L.flatten.count v = L.countP fun t => decide (v ∈ t) := by
  induction L with
  | nil => simp
  | cons t rest ih =>
    rw [List.flatten_cons, List.count_append, List.countP_cons,
      ih fun s hs => h s (List.mem_cons_of_mem t hs),
      List.count_eq_of_nodup (h t (List.mem_cons_self t rest))]
    by_cases hv : v ∈ t <;> simp [hv, Nat.add_comm]

theorem getD_npInsert_lt (l : List ℕ) (pos v c : ℕ) (hpos : pos ≤ l.length)
    (hc : c < pos) : (npInsert l pos v).getD c 0 = l.getD c 0 := by
  rw [npInsert, List.getD_append _ _ _ _ (by rw [List.length_take]; omega)]
  rw [List.getD_eq_getElem _ _ (by rw [List.length_take]; omega),
    List.getD_eq_getElem _ _ (by omega)]
  simp [List.getElem_take]

theorem getD_npInsert_self (l : List ℕ) (pos v : ℕ) (hpos : pos ≤ l.length) :
    (npInsert l pos v).getD pos 0 = v := by
  rw [npInsert, List.getD_append_right _ _ _ _ (by rw [List.length_take]; omega)]
  rw [List.length_take, min_eq_left hpos]
  simp

theorem getD_npInsert_gt (l : List ℕ) (pos v c : ℕ) (hpos : pos ≤ l.length)
    (hc : pos < c) : (npInsert l pos v).getD c 0 = l.getD (c - 1) 0 := by
  rw [npInsert, List.getD_append_right _ _ _ _ (by rw [List.length_take]; omega)]
  rw [List.length_take, min_eq_left hpos]
  have h1 : c - pos = (c - pos - 1) + 1 := by omega
  rw [h1, List.getD_cons_succ]
  rcases Nat.lt_or_ge (c - 1) l.length with h | h
  · rw [List.getD_eq_getElem (l.drop pos) _ (by rw [List.length_drop]; omega),
      List.getD_eq_getElem _ _ h]
    rw [List.getElem_drop]
    congr 1
    omega
  · rw [List.getD_eq_default _ _ (by rw [List.length_drop]; omega),
      List.getD_eq_default _ _ h]

/-- **C6**: Final per-direction division — after all work items are
processed, the accumulated output of each DWI direction is divided by the
number of selected work items containing that direction's index, and the b0
channel is divided by the total number of selected work items. -/
theorem final_division (acc : ℕ → ℚ) (indexes : List (List ℕ)) (b0_loc ndwi c : ℕ)
    (hnodup : ∀ t ∈ indexes, t.Nodup)
    (hbound : ∀ t ∈ indexes, ∀ x ∈ t, x < ndwi)
    (hcover : ∀ d < ndwi, ∃ t ∈ indexes, d ∈ t)
    (hd : 0 < ndwi)
    (hb0 : b0_loc ≤ ndwi) (hc : c < ndwi + 1) :
    (c = b0_loc → dividedOutput acc indexes b0_loc c = acc c / (indexes.length : ℚ)) ∧
    (c ≠ b0_loc →
      dividedOutput acc indexes b0_loc c =
        acc c /
          ((indexes.countP fun t => decide ((if c < b0_loc then c else c - 1) ∈ t) : ℕ) : ℚ)) := by
  have hflat_ne : indexes.flatten ≠ [] := by
    rcases hcover 0 hd with ⟨t, ht, h0⟩
    intro hcon
    have : (0 : ℕ) ∈ indexes.flatten := List.mem_flatten.mpr ⟨t, ht, h0⟩
    rw [hcon] at this
    simp at this
  have hflat_b : ∀ x ∈ indexes.flatten, x < ndwi := by
    intro x hx
    rcases List.mem_flatten.mp hx with ⟨t, ht, hxt⟩
    exact hbound t ht x hxt
  have hflat_c : ∀ d < ndwi, d ∈ indexes.flatten := by
    intro d hdn
    rcases hcover d hdn with ⟨t, ht, hdt⟩
    exact List.mem_flatten.mpr ⟨t, ht, hdt⟩
  have hlen : (bincount indexes.flatten).length = ndwi :=
    bincount_length _ _ hflat_ne hflat_b hflat_c
  constructor
  · intro hceq
    subst hceq
    rw [dividedOutput, finalDivider, getD_npInsert_self _ _ _ (by omega)]
  · intro hcne
    rcases Nat.lt_or_ge c b0_loc with hlt | hge
    · rw [dividedOutput, finalDivider, getD_npInsert_lt _ _ _ _ (by omega) hlt,
        bincount_getD _ _ (by omega), count_flatten_nodup _ hnodup, if_pos hlt]
    · have hgt : b0_loc < c := by omega
      rw [dividedOutput, finalDivider, getD_npInsert_gt _ _ _ _ (by omega) hgt,
        bincount_getD _ _ (by omega), count_flatten_nodup _ hnodup,
        if_neg (by omega)]

/-- Witness for C6 at a concrete input: two work items `[0, 1]` and `[1]`,
b0 inserted at position 0; direction 1 (channel 2) was touched by both work
items, so its accumulated value is divided by 2. -/
theorem final_division_witness :
    ((2 : ℕ) = 0 →
      dividedOutput (fun _ => (6 : ℚ)) [[0, 1], [1]] 0 2 = (6 : ℚ) / (2 : ℚ)) ∧
    ((2 : ℕ) ≠ 0 →
      dividedOutput (fun _ => (6 : ℚ)) [[0, 1], [1]] 0 2 =
        (6 : ℚ) /
          ((([[0, 1], [1]] : List (List ℕ)).countP
            fun t => decide ((if 2 < 0 then 2 else 2 - 1) ∈ t) : ℕ) : ℚ)) :=
  final_division (fun _ => (6 : ℚ)) [[0, 1], [1]] 0 2 2
    (by decide) (by decide) (by decide) (by decide) (by decide) (by decide)

/-! ## Slab schedule and reduction (`local_denoise`, denoiser.py lines 326-355)

`local_denoise` slices the volume along the third spatial axis into slabs
`data[:, :, k:k+block_size[2]]` for `k in range(data.shape[2] -
block_size[2] + 1)`, maps the per-slab solver over them, and reduces with
`data_subset[:, :, k:k+block_size[2]] += data_denoised[k]` together with a
voxel-wise counter, finally dividing accumulator by counter.  A 4-D volume
is modelled as its extents plus a value function. -/

/-- A 4-D array: three spatial extents, one direction extent, and the voxel
values. -/
structure Vol4 where
  n1 : ℕ
  n2 : ℕ
  n3 : ℕ
  n4 : ℕ
  val : ℕ → ℕ → ℕ → ℕ → ℚ

/-- The slab `data[:, :, k:k+b]` of `local_denoise`. -/
def zslice (a : Vol4) (k b : ℕ) : Vol4 :=
  ⟨a.n1, a.n2, min b (a.n3 - k), a.n4, fun x y z w => a.val x y (k + z) w⟩

/-- The slab starting offsets `range(data.shape[2] - block_size[2] + 1)`. -/
def slabStarts (n3 b : ℕ) : List ℕ := List.range (n3 - b + 1)

/-- One step of the reduction loop of `local_denoise` (lines 351-352):
`data_subset[:, :, k:k+b] += data_denoised[k]` and
`divider[:, :, k:k+b] += ones`, expressed voxel-wise. -/
def localStep (b : ℕ) (acc : (ℕ → ℕ → ℕ → ℕ → ℚ) × (ℕ → ℕ → ℕ → ℕ → ℕ))
    (p : ℕ × (ℕ → ℕ → ℕ → ℕ → ℚ)) : (ℕ → ℕ → ℕ → ℕ → ℚ) × (ℕ → ℕ → ℕ → ℕ → ℕ) :=
  (fun x y z w => acc.1 x y z w + if p.1 ≤ z ∧ z < p.1 + b then p.2 x y (z - p.1) w else 0,
   fun x y z w => acc.2 x y z w + if p.1 ≤ z ∧ z < p.1 + b then 1 else 0)

/-- The reduction loop of `local_denoise` (lines 350-352): fold the per-slab
results (paired with their starting offsets) into a value accumulator and a
voxel-wise overlap counter. -/
def localAccum (b : ℕ) (pairs : List (ℕ × (ℕ → ℕ → ℕ → ℕ → ℚ))) :
    (ℕ → ℕ → ℕ → ℕ → ℚ) × (ℕ → ℕ → ℕ → ℕ → ℕ) :=
  pairs.foldl (localStep b) (fun _ _ _ _ => 0, fun _ _ _ _ => 0)

/-- The slab dispatch and reduction of `local_denoise`, with the per-slab
solver (`processer`, i.e. one `_processer` call) abstracted as `proc`:
accumulate every slab result at its voxel range and divide by the voxel-wise
count (`data_subset /= divider`, line 354). -/
def localReduce (data : Vol4) (b : ℕ) (proc : Vol4 → (ℕ → ℕ → ℕ → ℕ → ℚ)) :
    ℕ → ℕ → ℕ → ℕ → ℚ :=
  let pairs := (slabStarts data.n3 b).map fun k => (k, proc (zslice data k b))
  fun x y z w => (localAccum b pairs).1 x y z w / ((localAccum b pairs).2 x y z w : ℚ)

theorem localAccum_foldl_fst (b : ℕ) (pairs : List (ℕ × (ℕ → ℕ → ℕ → ℕ → ℚ)))
    (init : (ℕ → ℕ → ℕ → ℕ → ℚ) × (ℕ → ℕ → ℕ → ℕ → ℕ)) (x y z w : ℕ) :
    (pairs.foldl (localStep b) init).1 x y z w =
      init.1 x y z w +
        ((pairs.filter fun p => decide (p.1 ≤ z ∧ z < p.1 + b)).map
          fun p => p.2 x y (z - p.1) w).sum := by
  induction pairs generalizing init with
  | nil => simp
  | cons p rest ih =>
    simp only [List.foldl_cons, List.filter_cons]
    by_cases hp : p.1 ≤ z ∧ z < p.1 + b
    · rw [ih]
      simp [localStep, hp]
      ring
    · rw [ih]
      simp [localStep, hp]

theorem localAccum_foldl_snd (b : ℕ) (pairs : List (ℕ × (ℕ → ℕ → ℕ → ℕ → ℚ)))
    (init : (ℕ → ℕ → ℕ → ℕ → ℚ) × (ℕ → ℕ → ℕ → ℕ → ℕ)) (x y z w : ℕ) :
    (pairs.foldl (localStep b) init).2 x y z w =
      init.2 x y z w + (pairs.filter fun p => decide (p.1 ≤ z ∧ z < p.1 + b)).length := by
  induction pairs generalizing init with
  | nil => simp
  | cons p rest ih =>
    simp only [List.foldl_cons, List.filter_cons]
    by_cases hp : p.1 ≤ z ∧ z < p.1 + b
    · rw [ih]
      simp [localStep, hp]
      omega
    · rw [ih]
      simp [localStep, hp]

theorem localAccum_fst (b : ℕ) (pairs : List (ℕ × (ℕ → ℕ → ℕ → ℕ → ℚ))) (x y z w : ℕ) :
    (localAccum b pairs).1 x y z w =
      ((pairs.filter fun p => decide (p.1 ≤ z ∧ z < p.1 + b)).map
        fun p => p.2 x y (z - p.1) w).sum := by
  rw [localAccum, localAccum_foldl_fst]
  simp

theorem localAccum_snd (b : ℕ) (pairs : List (ℕ × (ℕ → ℕ → ℕ → ℕ → ℚ))) (x y z w : ℕ) :
    (localAccum b pairs).2 x y z w =
      (pairs.filter fun p => decide (p.1 ≤ z ∧ z < p.1 + b)).length := by
  rw [localAccum, localAccum_foldl_snd]
  simp

/-- **C5**: Slab schedule and reduction average — `local_denoise` partitions
the volume along the third spatial axis into exactly `extent - b + 1` slabs
of thickness `b`, one per starting offset `0 .. extent - b`; the reduced
output at every voxel equals the sum of the per-slab results covering it
divided by the number of covering slabs (at least one), and the accumulation
is invariant under permuting the slab results. -/
theorem slab_schedule_and_average (data : Vol4) (b : ℕ)
    (proc : Vol4 → (ℕ → ℕ → ℕ → ℕ → ℚ)) (x y z w : ℕ)
    (hb : 1 ≤ b) (hbn : b ≤ data.n3) (hz : z < data.n3) :
    (slabStarts data.n3 b).length = data.n3 - b + 1 ∧
    (slabStarts data.n3 b).Nodup ∧
    (∀ k, k ∈ slabStarts data.n3 b ↔ k ≤ data.n3 - b) ∧
    (∀ k ∈ slabStarts data.n3 b, (zslice data k b).n3 = b) ∧
    ((slabStarts data.n3 b).filter (fun k => decide (k ≤ z ∧ z < k + b)) ≠ [] ∧
      localReduce data b proc x y z w =
        (((slabStarts data.n3 b).filter (fun k => decide (k ≤ z ∧ z < k + b))).map
            (fun k => proc (zslice data k b) x y (z - k) w)).sum /
          ((((slabStarts data.n3 b).filter (fun k => decide (k ≤ z ∧ z < k + b))).length : ℕ) :
            ℚ)) ∧
    (∀ pairs pairs' : List (ℕ × (ℕ → ℕ → ℕ → ℕ → ℚ)), pairs.Perm pairs' →
      ∀ x' y' z' w', (localAccum b pairs).1 x' y' z' w' = (localAccum b pairs').1 x' y' z' w' ∧
        (localAccum b pairs).2 x' y' z' w' = (localAccum b pairs').2 x' y' z' w') := by
  refine ⟨by simp [slabStarts], List.nodup_range _, ?_, ?_, ⟨?_, ?_⟩, ?_⟩
  · intro k
    simp only [slabStarts, List.mem_range]
    omega
  · intro k hk
    rw [slabStarts, List.mem_range] at hk
    simp only [zslice]
    omega
  · have hk0 : min z (data.n3 - b) ∈
        (slabStarts data.n3 b).filter fun k => decide (k ≤ z ∧ z < k + b) := by
      rw [List.mem_filter]
      constructor
      · rw [slabStarts, List.mem_range]; omega
      · simp only [decide_eq_true_eq]; omega
    intro hcon
    rw [hcon] at hk0
    simp at hk0
  · rw [localReduce]
    simp only
    rw [localAccum_fst, localAccum_snd]
    rw [List.filter_map, List.map_map, List.length_map]
    congr 1
  · intro pairs pairs' hperm x' y' z' w'
    constructor
    · rw [localAccum_fst, localAccum_fst]
      exact List.Perm.sum_eq (List.Perm.map _ (List.Perm.filter _ hperm))
    · rw [localAccum_snd, localAccum_snd]
      exact List.Perm.length_eq (List.Perm.filter _ hperm)

/-- Witness for C5 at a concrete input: a `1×1×3×1` volume with `b = 2`
gives slabs at offsets 0 and 1; the voxel `z = 1` is covered by both. -/
theorem slab_schedule_and_average_witness :
    (slabStarts (Vol4.mk 1 1 3 1 fun _ _ z _ => (z : ℚ)).n3 2).length =
        (Vol4.mk 1 1 3 1 fun _ _ z _ => (z : ℚ)).n3 - 2 + 1 ∧
    (slabStarts (Vol4.mk 1 1 3 1 fun _ _ z _ => (z : ℚ)).n3 2).Nodup ∧
    (∀ k, k ∈ slabStarts (Vol4.mk 1 1 3 1 fun _ _ z _ => (z : ℚ)).n3 2 ↔
      k ≤ (Vol4.mk 1 1 3 1 fun _ _ z _ => (z : ℚ)).n3 - 2) ∧
    (∀ k ∈ slabStarts (Vol4.mk 1 1 3 1 fun _ _ z _ => (z : ℚ)).n3 2,
      (zslice (Vol4.mk 1 1 3 1 fun _ _ z _ => (z : ℚ)) k 2).n3 = 2) ∧
    ((slabStarts (Vol4.mk 1 1 3 1 fun _ _ z _ => (z : ℚ)).n3 2).filter
        (fun k => decide (k ≤ 1 ∧ 1 < k + 2)) ≠ [] ∧
      localReduce (Vol4.mk 1 1 3 1 fun _ _ z _ => (z : ℚ)) 2 (fun s => s.val) 0 0 1 0 =
        (((slabStarts (Vol4.mk 1 1 3 1 fun _ _ z _ => (z : ℚ)).n3 2).filter
              (fun k => decide (k ≤ 1 ∧ 1 < k + 2))).map
            (fun k =>
              (zslice (Vol4.mk 1 1 3 1 fun _ _ z _ => (z : ℚ)) k 2).val 0 0 (1 - k) 0)).sum /
          (((((slabStarts (Vol4.mk 1 1 3 1 fun _ _ z _ => (z : ℚ)).n3 2).filter
              (fun k => decide (k ≤ 1 ∧ 1 < k + 2))).length : ℕ)) : ℚ)) ∧
    (∀ pairs pairs' : List (ℕ × (ℕ → ℕ → ℕ → ℕ → ℚ)), pairs.Perm pairs' →
      ∀ x' y' z' w',
        (localAccum 2 pairs).1 x' y' z' w' = (localAccum 2 pairs').1 x' y' z' w' ∧
        (localAccum 2 pairs).2 x' y' z' w' = (localAccum 2 pairs').2 x' y' z' w') :=
  slab_schedule_and_average (Vol4.mk 1 1 3 1 fun _ _ z _ => (z : ℚ)) 2 (fun s => s.val)
    0 0 1 0 (by decide) (by decide) (by decide)

/-! ## The per-slab solver (`_processer`, denoiser.py lines 217-280)

Matrices are stored column-major (`Mat` is a list of columns), matching the
per-column structure of the loop.  The external solver `spams.lasso` is an
abstract parameter `lasso : ℕ → Col → Col`: for fixed inputs, every
argument of the call
`spams.lasso(X[:, i:i+1], Q=DtDW, q=DtXW[:, i:i+1], **param_alpha)` —
including `X[:, i]`, `DtD`, `DtX`, `param_alpha['L']`, the modes, and
`lambda1 = var_mat[i] * (X.shape[0] + gamma * sqrt(2 * X.shape[0]))` —
is a function of the column index `i` and that column's current weights
`W[:, i]`, which are exactly the abstraction's arguments.  The
`np.random.randn` draw is the parameter `noise`. -/

abbrev Col := List ℚ

abbrev Mat := List Col

abbrev Arr3 (α : Type) := List (List (List α))

abbrev Arr4 (α : Type) := List (List (List (List α)))

def get3 {α : Type} (a : Arr3 α) (d : α) (i j k : ℕ) : α :=
  ((a.getD i []).getD j []).getD k d

def get4 {α : Type} (a : Arr4 α) (d : α) (i j k l : ℕ) : α :=
  (((a.getD i []).getD j []).getD k []).getD l d

/-- Modelled from the spec: window start offsets along one axis for block
decomposition — step `block - overlap`, clamped so that the final window
stays in bounds.  (`nlsam.utils.im2col_nd` / `col2im_nd` are repository code
not present in the provided source.) -/
def windowStarts (n b step : ℕ) : List ℕ :=
  if b ≤ n then
    let last := n - b
    let base := (List.range (last / step + 1)).map (· * step)
    if last % step = 0 then base else base ++ [last]
  else []

/-- Modelled from the spec: block decomposition of a 3-D array — slide a
window of shape `(b1, b2, b3)` with the given overlaps, flattening each
window into one column, columns in raster order. -/
def im2col3 {α : Type} (a : Arr3 α) (d : α) (b1 b2 b3 o1 o2 o3 : ℕ) : List (List α) :=
  (windowStarts a.length b1 (b1 - o1)).flatMap fun i =>
    (windowStarts (a.headD []).length b2 (b2 - o2)).flatMap fun j =>
      (windowStarts ((a.headD []).headD []).length b3 (b3 - o3)).map fun k =>
        (List.range b1).flatMap fun di =>
          (List.range b2).flatMap fun dj =>
            (List.range b3).map fun dk => get3 a d (i + di) (j + dj) (k + dk)

/-- Modelled from the spec: block decomposition of a 4-D array, as
`im2col3` with one more axis. -/
def im2col4 {α : Type} (a : Arr4 α) (d : α) (b1 b2 b3 b4 o1 o2 o3 o4 : ℕ) :
    List (List α) :=
  (windowStarts a.length b1 (b1 - o1)).flatMap fun i =>
    (windowStarts (a.headD []).length b2 (b2 - o2)).flatMap fun j =>
      (windowStarts ((a.headD []).headD []).length b3 (b3 - o3)).flatMap fun k =>
        (windowStarts (((a.headD []).headD []).headD []).length b4 (b4 - o4)).map fun l =>
          (List.range b1).flatMap fun di =>
            (List.range b2).flatMap fun dj =>
              (List.range b3).flatMap fun dk =>
                (List.range b4).map fun dl =>
                  get4 a d (i + di) (j + dj) (k + dk) (l + dl)

/-- `train_idx = np.sum(mask_array, axis=0) > mask_array.shape[0] / 2.`
(line 221): a block is a training column when more than half of its mask
voxels are true. -/
def trainIdxOf (mask : Arr3 Bool) (b1 b2 b3 o1 o2 o3 : ℕ) : List Bool :=
  (im2col3 mask false b1 b2 b3 o1 o2 o3).map fun c =>
    decide (((c.count true : ℕ) : ℚ) > ((b1 * b2 * b3 : ℕ) : ℚ) / 2)

/-- Column selection `X[:, train_idx]`. -/
def selectCols {α : Type} (trainIdx : List Bool) (cols : List α) : List α :=
  ((trainIdx.zip cols).filter fun p => p.1).map fun p => p.2

def dotL (a b : Col) : ℚ := (List.zipWith (· * ·) a b).sum

/-- `np.dot(D, x)` for one column, `n` = number of rows of `D` (`D` stored
column-major). -/
def mulMV (n : ℕ) (D : Mat) (x : Col) : Col :=
  (List.zipWith (fun dc xc => dc.map (xc * ·)) D x).foldl
    (fun acc v => List.zipWith (· + ·) acc v) (List.replicate n 0)

def insertSorted (x : ℚ) : List ℚ → List ℚ
  | [] => [x]
  | y :: t => if x ≤ y then x :: y :: t else y :: insertSorted x t

def sortQ (l : List ℚ) : List ℚ := l.foldr insertSorted []

/-- `np.median` of a list: middle element of the sorted list, or the mean of
the two middle elements for even length. -/
def median (l : List ℚ) : ℚ :=
  let s := sortQ l
  if l.length % 2 = 1 then s.getD (l.length / 2) 0
  else (s.getD (l.length / 2 - 1) 0 + s.getD (l.length / 2) 0) / 2

/-- Modelled from the spec: the per-column variance estimate `var_mat`
(line 228) — the median, per selected column, of the variance volume
decomposed into blocks analogously to the data (the exact slicing
`variance[..., 0:orig_shape[-1]]` goes through `nlsam.utils.im2col_nd`,
which is not part of the provided source). -/
def varMatOf (variance : Arr3 ℚ) (trainIdx : List Bool) (b1 b2 b3 o1 o2 o3 : ℕ) :
    List ℚ :=
  (selectCols trainIdx (im2col3 variance 0 b1 b2 b3 o1 o2 o3)).map median

/-- `eps = np.max(np.abs(np.dot(D.T, xi)), axis=0)` (line 247) with
`xi = np.random.randn(...) * var_mat` (line 246); `noise` is the random
draw. -/
def epsOf (D : Mat) (noise : Mat) (varMat : List ℚ) : List ℚ :=
  (List.zipWith (fun nc vm => nc.map (· * vm)) noise varMat).map fun xc =>
    ((D.map fun dc => |dotL dc xc|).foldr max 0)

/-- `np.max(np.abs(alpha_old - arr), axis=0)` for one column. -/
def maxAbsDiff (a b : Col) : ℚ := (List.zipWith (fun x y => |x - y|) a b).foldr max 0

/-- `arr = alpha.toarray(); arr[nonzero] /= W[nonzero]` (lines 262-264):
undo the weighting scale on the non-zero coefficients. -/
def arrOfAlpha (alphaCols W : Mat) : Mat :=
  List.zipWith
    (fun acol wcol => List.zipWith (fun a w => if a ≠ 0 then a / w else a) acol wcol)
    alphaCols W

/-- The loop state of the reweighted solve: the raw sparse coefficients
(`alpha`), the previous round's rescaled coefficients (`alpha_old`), the
weights (`W`), the Python local `arr` (unassigned before the first round),
and the per-column convergence flags. -/
structure IterState where
  alphaCols : Mat
  alphaOld : Mat
  W : Mat
  arrCur : Option Mat
  hasConv : List Bool

/-- One round of the reweighted loop up to and including the convergence
test (lines 252-265): solve every not-yet-converged column with the current
weights, rescale the non-zero coefficients, and flag a column converged
exactly when the maximum absolute change against the previous round is
strictly below `1e-5`. -/
def solveRound (lasso : ℕ → Col → Col) (s : IterState) : IterState :=
  let newAlpha := (List.range s.alphaCols.length).map fun i =>
    if s.hasConv.getD i false then s.alphaCols.getD i [] else lasso i (s.W.getD i [])
  let arr := arrOfAlpha newAlpha s.W
  let conv := (List.range newAlpha.length).map fun i =>
    decide (maxAbsDiff (s.alphaOld.getD i []) (arr.getD i []) < 1 / 100000)
  ⟨newAlpha, s.alphaOld, s.W, some arr, conv⟩

/-- The weight update of lines 270-271 (`tau = 1`):
`alpha_old = arr; W = 1 / (|alpha_old| + eps)`. -/
def updateWeights (eps : List ℚ) (s : IterState) : IterState :=
  match s.arrCur with
  | none => s
  | some arr =>
    ⟨s.alphaCols, arr,
      (List.range arr.length).map fun i => (arr.getD i []).map fun a => 1 / (|a| + eps.getD i 0),
      s.arrCur, s.hasConv⟩

/-- The `for _ in range(n_iter)` loop of lines 251-271, with the early
`break` when every column has converged. -/
def iterLoop (lasso : ℕ → Col → Col) (eps : List ℚ) : ℕ → IterState → IterState
  | 0, s => s
  | n + 1, s =>
    let s' := solveRound lasso s
    if s'.hasConv.all id then s' else iterLoop lasso eps n (updateWeights eps s')

/-- The initial loop state (lines 236-244): `alpha` an all-zero sparse
matrix of shape `K × ncols`, `alpha_old` and `W` all ones, `arr` unassigned,
no column converged. -/
def initState (K ncols : ℕ) : IterState :=
  ⟨List.replicate ncols (List.replicate K 0),
    List.replicate ncols (List.replicate K 1),
    List.replicate ncols (List.replicate K 1),
    none,
    List.replicate ncols false⟩

/-- `selRank trainIdx c` is the selected-column rank of full column `c`:
the number of training columns before it. -/
def selRank (trainIdx : List Bool) (c : ℕ) : ℕ := (trainIdx.take c).count true

/-- `weigths = np.ones(...); weigths[train_idx] = 1. / (alpha.getnnz(axis=0)
+ 1.)` (lines 274-275): training columns get weight `1/(nonzero count + 1)`
in order, all other columns keep weight 1. -/
def reconWeights : List Bool → List ℕ → List ℚ
  | [], _ => []
  | false :: t, ns => 1 :: reconWeights t ns
  | true :: t, [] => 1 :: reconWeights t []
  | true :: t, n :: ns => (1 / ((n : ℚ) + 1)) :: reconWeights t ns

/-- `X2 = np.zeros(X_full_shape); X2[:, train_idx] = X` (lines 277-278):
scatter the reconstructed training columns back into the full matrix,
leaving all-zero columns elsewhere. -/
def expandCols (rows : ℕ) : List Bool → Mat → Mat
  | [], _ => []
  | false :: t, cs => List.replicate rows 0 :: expandCols rows t cs
  | true :: t, [] => List.replicate rows 0 :: expandCols rows t []
  | true :: t, c :: cs => c :: expandCols rows t cs

def listModify {α : Type} (l : List α) (n : ℕ) (f : α → α) : List α :=
  match l.get? n with
  | none => l
  | some x => l.set n (f x)

def modify4 (a : Arr4 ℚ) (i j k l : ℕ) (f : ℚ → ℚ) : Arr4 ℚ :=
  listModify a i fun p1 => listModify p1 j fun p2 => listModify p2 k fun p3 =>
    listModify p3 l f

def zeros4 (n1 n2 n3 n4 : ℕ) : Arr4 ℚ :=
  List.replicate n1 (List.replicate n2 (List.replicate n3 (List.replicate n4 (0 : ℚ))))

/-- Modelled from the spec: block reassembly (`col2im_nd`) — accumulate each
column, scaled by its reconstruction weight, back at its source window
location (windows enumerated exactly as in `im2col4`), returning the
accumulator.  (`nlsam.utils.col2im_nd` is repository code not present in the
provided source.) -/
def col2im4 (cols : Mat) (weights : List ℚ) (b1 b2 b3 b4 o1 o2 o3 o4 n1 n2 n3 n4 : ℕ) :
    Arr4 ℚ :=
  let pos := (windowStarts n1 b1 (b1 - o1)).flatMap fun i =>
    (windowStarts n2 b2 (b2 - o2)).flatMap fun j =>
      (windowStarts n3 b3 (b3 - o3)).flatMap fun k =>
        (windowStarts n4 b4 (b4 - o4)).map fun l => (i, j, k, l)
  (pos.zip (cols.zip weights)).foldl
    (fun acc pcw =>
      (List.range (b1 * b2 * b3 * b4)).foldl
        (fun a t =>
          modify4 a (pcw.1.1 + t / (b2 * b3 * b4)) (pcw.1.2.1 + t / (b3 * b4) % b2)
            (pcw.1.2.2.1 + t / b4 % b3) (pcw.1.2.2.2 + t % b4)
            (· + pcw.2.2 * pcw.2.1.getD t 0))
        acc)
    (zeros4 n1 n2 n3 n4)

/-- `np.zeros_like(data)` (line 225). -/
def zerosLike4 (a : Arr4 ℚ) : Arr4 ℚ :=
  a.map (List.map (List.map (List.map fun _ => (0 : ℚ))))

/-- The reconstruction/reassembly tail of `_processer` (lines 273-280):
`X = np.dot(D, arr)`, the per-column reconstruction weights, the scatter
into the full-width matrix, and the reassembly. -/
def processerTail (trainIdx : List Bool) (alphaCols arr : Mat) (D : Mat)
    (data : Arr4 ℚ) (b1 b2 b3 b4 o1 o2 o3 o4 : ℕ) : Arr4 ℚ :=
  let rows := b1 * b2 * b3 * b4
  let Xrec := arr.map (mulMV rows D)
  let nnzs := alphaCols.map fun c => c.countP fun a => decide (a ≠ 0)
  col2im4 (expandCols rows trainIdx Xrec) (reconWeights trainIdx nnzs)
    b1 b2 b3 b4 o1 o2 o3 o4
    data.length (data.headD []).length ((data.headD []).headD []).length
    (((data.headD []).headD []).headD []).length

/-- `_processer` (denoiser.py lines 217-280).  Returns `none` when the
Python function would raise `NameError`: the local `arr` is assigned only
inside the iteration loop, so it is unbound after a loop that ran zero
rounds. -/
def _processer (lasso : ℕ → Col → Col) (data : Arr4 ℚ) (mask : Arr3 Bool)
    (variance : Arr3 ℚ) (b1 b2 b3 b4 o1 o2 o3 o4 : ℕ) (D : Mat) (noise : Mat)
    (n_iter : ℕ) : Option (Arr4 ℚ) :=
  if !((trainIdxOf mask b1 b2 b3 o1 o2 o3).any id) then some (zerosLike4 data)
  else
    let trainIdx := trainIdxOf mask b1 b2 b3 o1 o2 o3
    let Xfull := im2col4 data 0 b1 b2 b3 b4 o1 o2 o3 o4
    let X := selectCols trainIdx Xfull
    let varMat := varMatOf variance trainIdx b1 b2 b3 o1 o2 o3
    let eps := epsOf D noise varMat
    let final := iterLoop lasso eps n_iter (initState D.length X.length)
    match final.arrCur with
    | none => none
    | some arr =>
      some (processerTail trainIdx final.alphaCols arr D data b1 b2 b3 b4 o1 o2 o3 o4)

/-- A single un-reweighted sparse solve, following the wording of the claim
for C8: one solver pass with all reweighting weights equal to one and no
weight update, followed by the same reconstruction and reassembly as
`_processer`. -/
def unreweightedSolve (lasso : ℕ → Col → Col) (data : Arr4 ℚ) (mask : Arr3 Bool)
    (b1 b2 b3 b4 o1 o2 o3 o4 : ℕ) (D : Mat) : Option (Arr4 ℚ) :=
  if !((trainIdxOf mask b1 b2 b3 o1 o2 o3).any id) then some (zerosLike4 data)
  else
    let trainIdx := trainIdxOf mask b1 b2 b3 o1 o2 o3
    let Xfull := im2col4 data 0 b1 b2 b3 b4 o1 o2 o3 o4
    let X := selectCols trainIdx Xfull
    let alphaCols := (List.range X.length).map fun i => lasso i (List.replicate D.length 1)
    some (processerTail trainIdx alphaCols alphaCols D data b1 b2 b3 b4 o1 o2 o3 o4)

theorem getD_replicate {α : Type} (x d : α) :
    ∀ (n i : ℕ), i < n → (List.replicate n x).getD i d = x := by
  intro n
  induction n with
  | zero => intro i hi; omega
  | succ n ih =>
    intro i hi
    cases i with
    | zero => rfl
    | succ i' => exact ih i' (by omega)

theorem getD_range_map {α : Type} (f : ℕ → α) (d : α) (n i : ℕ) (h : i < n) :
    ((List.range n).map f).getD i d = f i := by
  rw [List.getD_eq_getElem _ _ (by simpa using h)]
  simp

/-- **C3**: Convergence detection in the reweighted loop — in every round a
column is flagged converged exactly when the maximum absolute change of its
coefficient vector against the previous round is strictly below `1e-5`
(never at exactly `1e-5`), and as soon as every column is flagged the loop
performs no further rounds. -/
theorem convergence_detection :
    (∀ (lasso : ℕ → Col → Col) (s : IterState) (i : ℕ) (arr : Mat),
      i < s.alphaCols.length → (solveRound lasso s).arrCur = some arr →
      ((solveRound lasso s).hasConv.getD i false = true ↔
        maxAbsDiff (s.alphaOld.getD i []) (arr.getD i []) < 1 / 100000)) ∧
    (∀ (lasso : ℕ → Col → Col) (s : IterState) (i : ℕ) (arr : Mat),
      i < s.alphaCols.length → (solveRound lasso s).arrCur = some arr →
      maxAbsDiff (s.alphaOld.getD i []) (arr.getD i []) = 1 / 100000 →
      (solveRound lasso s).hasConv.getD i false = false) ∧
    (∀ (lasso : ℕ → Col → Col) (eps : List ℚ) (n : ℕ) (s : IterState),
      (solveRound lasso s).hasConv.all id = true →
      iterLoop lasso eps (n + 1) s = solveRound lasso s) ∧
    (∀ (lasso : ℕ → Col → Col) (eps : List ℚ) (n : ℕ) (s : IterState),
      ¬((solveRound lasso s).hasConv.all id = true) →
      iterLoop lasso eps (n + 1) s = iterLoop lasso eps n (updateWeights eps (solveRound lasso s))) := by
  have hconv : ∀ (lasso : ℕ → Col → Col) (s : IterState) (i : ℕ) (arr : Mat),
      i < s.alphaCols.length → (solveRound lasso s).arrCur = some arr →
      ((solveRound lasso s).hasConv.getD i false = true ↔
        maxAbsDiff (s.alphaOld.getD i []) (arr.getD i []) < 1 / 100000) := by
    intro lasso s i arr hi harr
    have harr' :
        arrOfAlpha
          ((List.range s.alphaCols.length).map fun i =>
            if s.hasConv.getD i false then s.alphaCols.getD i [] else lasso i (s.W.getD i []))
          s.W = arr := by
      simpa [solveRound] using harr
    simp only [solveRound, List.length_map, List.length_range]
    rw [harr', getD_range_map _ _ _ _ hi]
    simp only [decide_eq_true_eq]
  refine ⟨hconv, ?_, ?_, ?_⟩
  · intro lasso s i arr hi harr heq
    have h := hconv lasso s i arr hi harr
    cases hb : (solveRound lasso s).hasConv.getD i false with
    | false => rfl
    | true =>
      exfalso
      have hlt := h.mp hb
      rw [heq] at hlt
      exact lt_irrefl _ hlt
  · intro lasso eps n s hall
    rw [iterLoop]
    simp only [hall, if_pos]
  · intro lasso eps n s hall
    rw [iterLoop]
    simp only [Bool.not_eq_true] at hall
    rw [hall]
    simp

/-- Witness for C3 at concrete states: a solved column identical to the
previous round is flagged (change `0 < 1e-5`); a column at exact change
`1e-5` is not flagged; a fully converged round stops the loop; a
non-converged round continues it. -/
theorem convergence_detection_witness :
    ((solveRound (fun _ _ => [1]) ⟨[[0]], [[1]], [[1]], none, [false]⟩).hasConv.getD 0 false
        = true ↔
      maxAbsDiff ((⟨[[0]], [[1]], [[1]], none, [false]⟩ : IterState).alphaOld.getD 0 [])
        (([[1]] : Mat).getD 0 []) < 1 / 100000) ∧
    (solveRound (fun _ _ => [1 + 1 / 100000]) ⟨[[0]], [[1]], [[1]], none, [false]⟩).hasConv.getD
        0 false = false ∧
    iterLoop (fun _ _ => [1]) [1] 1 ⟨[[0]], [[1]], [[1]], none, [false]⟩ =
      solveRound (fun _ _ => [1]) ⟨[[0]], [[1]], [[1]], none, [false]⟩ ∧
    iterLoop (fun _ _ => [5]) [1] 1 ⟨[[0]], [[1]], [[1]], none, [false]⟩ =
      iterLoop (fun _ _ => [5]) [1] 0
        (updateWeights [1] (solveRound (fun _ _ => [5]) ⟨[[0]], [[1]], [[1]], none, [false]⟩)) :=
  ⟨convergence_detection.1 (fun _ _ => [1]) ⟨[[0]], [[1]], [[1]], none, [false]⟩ 0 [[1]]
      (by decide) (by norm_num [solveRound, arrOfAlpha, List.range_succ]),
    convergence_detection.2.1 (fun _ _ => [1 + 1 / 100000])
      ⟨[[0]], [[1]], [[1]], none, [false]⟩ 0 [[1 + 1 / 100000]] (by decide)
      (by norm_num [solveRound, arrOfAlpha, List.range_succ])
      (by norm_num [maxAbsDiff]),
    convergence_detection.2.2.1 (fun _ _ => [1]) [1] 0
      ⟨[[0]], [[1]], [[1]], none, [false]⟩
      (by norm_num [solveRound, arrOfAlpha, maxAbsDiff, List.range_succ]),
    convergence_detection.2.2.2 (fun _ _ => [5]) [1] 0
      ⟨[[0]], [[1]], [[1]], none, [false]⟩
      (by norm_num [solveRound, arrOfAlpha, maxAbsDiff, List.range_succ])⟩

/-- An entirely false 3-D mask. -/
def allFalse3 (m : Arr3 Bool) : Prop := ∀ x ∈ m, ∀ y ∈ x, ∀ z ∈ y, z = false

theorem getD_forall {α : Type} (l : List α) (d : α) (P : α → Prop)
    (hP : ∀ x ∈ l, P x) (hd : P d) (i : ℕ) : P (l.getD i d) := by
  rcases Nat.lt_or_ge i l.length with hi | hi
  · rw [List.getD_eq_getElem _ _ hi]
    exact hP _ (List.getElem_mem _)
  · rw [List.getD_eq_default _ _ hi]
    exact hd

theorem get3_allFalse (m : Arr3 Bool) (h : allFalse3 m) (i j k : ℕ) :
    get3 m false i j k = false := by
  unfold get3
  have h1 : ∀ y ∈ m.getD i [], ∀ z ∈ y, z = false :=
    getD_forall m [] (fun row => ∀ y ∈ row, ∀ z ∈ y, z = false) h (by simp) i
  have h2 : ∀ z ∈ (m.getD i []).getD j [], z = false :=
    getD_forall _ [] (fun col => ∀ z ∈ col, z = false) h1 (by simp) j
  exact getD_forall _ false (fun z => z = false) h2 rfl k

theorem trainIdx_allFalse (m : Arr3 Bool) (h : allFalse3 m) (b1 b2 b3 o1 o2 o3 : ℕ) :
    (trainIdxOf m b1 b2 b3 o1 o2 o3).any id = false := by
  rw [List.any_eq_false]
  intro x hx
  rcases List.mem_map.mp hx with ⟨c, hc, rfl⟩
  simp only [id, decide_eq_true_eq, not_lt]
  have hcf : (true : Bool) ∉ c := by
    intro htc
    rcases List.mem_flatMap.mp hc with ⟨i, _, hc2⟩
    rcases List.mem_flatMap.mp hc2 with ⟨j, _, hc3⟩
    rcases List.mem_map.mp hc3 with ⟨k, _, rfl⟩
    rcases List.mem_flatMap.mp htc with ⟨di, _, ht2⟩
    rcases List.mem_flatMap.mp ht2 with ⟨dj, _, ht3⟩
    rcases List.mem_map.mp ht3 with ⟨dk, _, ht4⟩
    rw [get3_allFalse m h] at ht4
    exact Bool.false_ne_true ht4
  rw [List.count_eq_zero.mpr hcf]
  positivity

theorem getD_map_nil {α β : Type} (f : List α → List β) (hf : f [] = [])
    (l : List (List α)) (i : ℕ) : (l.map f).getD i [] = f (l.getD i []) := by
  rcases Nat.lt_or_ge i l.length with hi | hi
  · rw [List.getD_eq_getElem _ _ (by simpa using hi), List.getD_eq_getElem _ _ hi,
      List.getElem_map]
  · rw [List.getD_eq_default _ _ (by simpa using hi), List.getD_eq_default _ _ hi, hf]

/-- **C4**: Zero-mask short circuit — when the mask yields no training
column (in particular for an entirely false mask), `_processer` returns an
all-zero array of the same shape as the input data, for every possible
external solver, and this is a normal return, not an error. -/
theorem zero_mask_short_circuit (lasso : ℕ → Col → Col) (data : Arr4 ℚ) (mask : Arr3 Bool)
    (variance : Arr3 ℚ) (b1 b2 b3 b4 o1 o2 o3 o4 : ℕ) (D noise : Mat) (n_iter : ℕ)
    (h : (trainIdxOf mask b1 b2 b3 o1 o2 o3).any id = false) :
    _processer lasso data mask variance b1 b2 b3 b4 o1 o2 o3 o4 D noise n_iter =
      some (zerosLike4 data) ∧
    (zerosLike4 data).length = data.length ∧
    (∀ i, ((zerosLike4 data).getD i []).length = (data.getD i []).length) ∧
    (∀ i j, (((zerosLike4 data).getD i []).getD j []).length =
      ((data.getD i []).getD j []).length) ∧
    (∀ i j k, ((((zerosLike4 data).getD i []).getD j []).getD k []).length =
      (((data.getD i []).getD j []).getD k []).length) ∧
    (allFalse3 mask → (trainIdxOf mask b1 b2 b3 o1 o2 o3).any id = false) := by
  refine ⟨?_, by simp [zerosLike4], ?_, ?_, ?_,
    fun hm => trainIdx_allFalse mask hm b1 b2 b3 o1 o2 o3⟩
  · simp [_processer, h]
  · intro i
    rw [zerosLike4, getD_map_nil _ (by simp)]
    simp
  · intro i j
    rw [zerosLike4, getD_map_nil _ (by simp), getD_map_nil _ (by simp)]
    simp
  · intro i j k
    rw [zerosLike4, getD_map_nil _ (by simp), getD_map_nil _ (by simp),
      getD_map_nil _ (by simp)]
    simp

/-- Witness for C4 at a concrete input: a `1×1×1` all-false mask over a
`1×1×1×1` slab short-circuits to the all-zero slab. -/
theorem zero_mask_short_circuit_witness :
    _processer (fun _ _ => [1]) [[[[5]]]] [[[false]]] [[[0]]] 1 1 1 1 0 0 0 0 [[1]] [[0]] 3 =
      some (zerosLike4 [[[[5]]]]) ∧
    (zerosLike4 [[[[(5 : ℚ)]]]]).length = ([[[[(5 : ℚ)]]]] : Arr4 ℚ).length ∧
    (∀ i, ((zerosLike4 [[[[(5 : ℚ)]]]]).getD i []).length =
      (([[[[(5 : ℚ)]]]] : Arr4 ℚ).getD i []).length) ∧
    (∀ i j, (((zerosLike4 [[[[(5 : ℚ)]]]]).getD i []).getD j []).length =
      ((([[[[(5 : ℚ)]]]] : Arr4 ℚ).getD i []).getD j []).length) ∧
    (∀ i j k, ((((zerosLike4 [[[[(5 : ℚ)]]]]).getD i []).getD j []).getD k []).length =
      (((([[[[(5 : ℚ)]]]] : Arr4 ℚ).getD i []).getD j []).getD k []).length) ∧
    (allFalse3 [[[false]]] → (trainIdxOf [[[false]]] 1 1 1 0 0 0).any id = false) :=
  zero_mask_short_circuit (fun _ _ => [1]) [[[[5]]]] [[[false]]] [[[0]]] 1 1 1 1 0 0 0 0
    [[1]] [[0]] 3
    (by norm_num [trainIdxOf, im2col3, windowStarts, get3, List.range_succ,
      List.count_cons])

/-- **C9**: Reconstruction weights — at reassembly each selected training
column is assigned reconstruction weight `1/(nonzero count + 1)` (taking the
nonzero count of its column, in selection order), and every unselected
column is assigned weight `1` together with an all-zero reconstructed
column. -/
theorem reconstruction_weights (trainIdx : List Bool) (nnzs : List ℕ) (rows : ℕ)
    (cols : Mat) (c : ℕ) (hc : c < trainIdx.length)
    (hlen : nnzs.length = trainIdx.count true) :
    (trainIdx.getD c false = true →
      (reconWeights trainIdx nnzs).getD c 0 =
        1 / ((nnzs.getD (selRank trainIdx c) 0 : ℚ) + 1)) ∧
    (trainIdx.getD c false = false →
      (reconWeights trainIdx nnzs).getD c 0 = 1 ∧
      (expandCols rows trainIdx cols).getD c [] = List.replicate rows 0) := by
  induction trainIdx generalizing c nnzs cols with
  | nil => simp at hc
  | cons b t ih =>
    cases b with
    | false =>
      cases c with
      | zero =>
        constructor
        · intro hx; simp at hx
        · intro _
          exact ⟨by simp [reconWeights], by simp [expandCols]⟩
      | succ c' =>
        have hc' : c' < t.length := by simpa using hc
        have hlen' : nnzs.length = t.count true := by
          simpa [List.count_cons] using hlen
        have hrec := ih nnzs cols c' hc' hlen'
        constructor
        · intro hx
          have hx' : t.getD c' false = true := by simpa using hx
          have h1 := hrec.1 hx'
          simpa [reconWeights, selRank, List.count_cons] using h1
        · intro hx
          have hx' : t.getD c' false = false := by simpa using hx
          have h2 := hrec.2 hx'
          exact ⟨by simpa [reconWeights] using h2.1, by simpa [expandCols] using h2.2⟩
    | true =>
      cases nnzs with
      | nil => simp [List.count_cons] at hlen
      | cons n ns =>
        cases c with
        | zero =>
          constructor
          · intro _
            simp [reconWeights, selRank]
          · intro hx; simp at hx
        | succ c' =>
          have hc' : c' < t.length := by simpa using hc
          have hlen' : ns.length = t.count true := by
            simpa [List.count_cons] using hlen
          constructor
          · intro hx
            have hx' : t.getD c' false = true := by simpa using hx
            cases cols with
            | nil =>
              have h1 := (ih ns ([] : Mat) c' hc' hlen').1 hx'
              simpa [reconWeights, selRank, List.count_cons, Nat.add_comm] using h1
            | cons cc cs =>
              have h1 := (ih ns cs c' hc' hlen').1 hx'
              simpa [reconWeights, selRank, List.count_cons, Nat.add_comm] using h1
          · intro hx
            have hx' : t.getD c' false = false := by simpa using hx
            cases cols with
            | nil =>
              have h2 := (ih ns ([] : Mat) c' hc' hlen').2 hx'
              exact ⟨by simpa [reconWeights] using h2.1, by simpa [expandCols] using h2.2⟩
            | cons cc cs =>
              have h2 := (ih ns cs c' hc' hlen').2 hx'
              exact ⟨by simpa [reconWeights] using h2.1, by simpa [expandCols] using h2.2⟩

/-- Witness for C9 at a concrete input: columns `[true, false]`, nonzero
counts `[2]` — the selected column gets weight `1/3`, the unselected column
weight `1` and zero content. -/
theorem reconstruction_weights_witness :
    (([true, false] : List Bool).getD 0 false = true →
      (reconWeights [true, false] [2]).getD 0 0 =
        1 / ((([2] : List ℕ).getD (selRank [true, false] 0) 0 : ℚ) + 1)) ∧
    (([true, false] : List Bool).getD 0 false = false →
      (reconWeights [true, false] [2]).getD 0 0 = 1 ∧
      (expandCols 2 [true, false] [[7, 7]]).getD 0 [] = List.replicate 2 0) :=
  reconstruction_weights [true, false] [2] 2 [[7, 7]] 0 (by decide) (by decide)

theorem zipWith_div_ones (c : Col) (K : ℕ) (h : c.length = K) :
    List.zipWith (fun a w => if a ≠ 0 then a / w else a) c (List.replicate K 1) = c := by
  induction c generalizing K with
  | nil => simp
  | cons a t ih =>
    cases K with
    | zero => simp at h
    | succ K' =>
      simp only [List.replicate_succ, List.zipWith_cons_cons]
      rw [ih K' (by simpa using h)]
      by_cases ha : a = 0
      · simp [ha]
      · simp [ha]

theorem arrOfAlpha_ones (cols : Mat) (K n : ℕ) (hn : n = cols.length)
    (hcols : ∀ c ∈ cols, c.length = K) :
    arrOfAlpha cols (List.replicate n (List.replicate K 1)) = cols := by
  subst hn
  induction cols with
  | nil => simp [arrOfAlpha]
  | cons c t ih =>
    have h1 := zipWith_div_ones c K (hcols c (List.mem_cons_self c t))
    have h2 := ih fun x hx => hcols x (List.mem_cons_of_mem c hx)
    simp only [arrOfAlpha, List.length_cons, List.replicate_succ,
      List.zipWith_cons_cons] at h2 ⊢
    rw [h1, h2]

theorem updateWeights_proj (eps : List ℚ) (s : IterState) :
    (updateWeights eps s).arrCur = s.arrCur ∧ (updateWeights eps s).alphaCols = s.alphaCols := by
  cases harr : s.arrCur with
  | none => simp [updateWeights, harr]
  | some a => simp [updateWeights, harr]

theorem iterLoop_one_proj (lasso : ℕ → Col → Col) (eps : List ℚ) (s : IterState) :
    (iterLoop lasso eps 1 s).arrCur = (solveRound lasso s).arrCur ∧
    (iterLoop lasso eps 1 s).alphaCols = (solveRound lasso s).alphaCols := by
  rw [iterLoop]
  by_cases h : (solveRound lasso s).hasConv.all id
  · simp [h]
  · simp only [h]
    rw [if_neg (by simpa using h)]
    rw [iterLoop]
    exact updateWeights_proj eps (solveRound lasso s)

theorem solveRound_arrCur (lasso : ℕ → Col → Col) (s : IterState) :
    (solveRound lasso s).arrCur = some (arrOfAlpha (solveRound lasso s).alphaCols s.W) := rfl

theorem solveRound_init_alphaCols (lasso : ℕ → Col → Col) (K ncols : ℕ) :
    (solveRound lasso (initState K ncols)).alphaCols =
      (List.range ncols).map fun i => lasso i (List.replicate K 1) := by
  simp only [solveRound, initState, List.length_replicate]
  apply List.map_congr_left
  intro i hi
  rw [List.mem_range] at hi
  rw [getD_replicate false false ncols i hi]
  rw [if_neg (by simp)]
  rw [getD_replicate (List.replicate K 1) [] ncols i hi]

theorem iterLoop_one_init (lasso : ℕ → Col → Col) (eps : List ℚ) (K ncols : ℕ)
    (hK : ∀ i w, (lasso i w).length = K) :
    (iterLoop lasso eps 1 (initState K ncols)).arrCur =
      some ((List.range ncols).map fun i => lasso i (List.replicate K 1)) ∧
    (iterLoop lasso eps 1 (initState K ncols)).alphaCols =
      (List.range ncols).map fun i => lasso i (List.replicate K 1) := by
  have hproj := iterLoop_one_proj lasso eps (initState K ncols)
  have halpha := solveRound_init_alphaCols lasso K ncols
  have harr : (solveRound lasso (initState K ncols)).arrCur =
      some ((List.range ncols).map fun i => lasso i (List.replicate K 1)) := by
    rw [solveRound_arrCur, halpha]
    congr 1
    have hW : (initState K ncols).W = List.replicate ncols (List.replicate K 1) := rfl
    rw [hW]
    exact arrOfAlpha_ones _ K ncols (by simp) fun c hc => by
      rcases List.mem_map.mp hc with ⟨i, _, rfl⟩
      exact hK i _
  exact ⟨hproj.1.trans harr, hproj.2.trans halpha⟩

/-- **C8 (amended)**: with `n_iter = 1`, `_processer` returns exactly the
result of a single un-reweighted sparse solve (one solver pass with all
reweighting weights equal to one and no weight update); with `n_iter = 0`
the loop never runs and `_processer` fails with an unbound-name error
(`arr` is only assigned inside the loop), modelled as `none`. -/
theorem n_iter_one_unreweighted (lasso : ℕ → Col → Col) (data : Arr4 ℚ) (mask : Arr3 Bool)
    (variance : Arr3 ℚ) (b1 b2 b3 b4 o1 o2 o3 o4 : ℕ) (D noise : Mat)
    (hK : ∀ i w, (lasso i w).length = D.length) :
    _processer lasso data mask variance b1 b2 b3 b4 o1 o2 o3 o4 D noise 1 =
      unreweightedSolve lasso data mask b1 b2 b3 b4 o1 o2 o3 o4 D := by
  rw [_processer, unreweightedSolve]
  by_cases htr : (trainIdxOf mask b1 b2 b3 o1 o2 o3).any id
  · have hc : ¬((!((trainIdxOf mask b1 b2 b3 o1 o2 o3).any id)) = true) := by simp [htr]
    rw [if_neg hc, if_neg hc]
    simp only []
    have h1 := iterLoop_one_init lasso
      (epsOf D noise (varMatOf variance (trainIdxOf mask b1 b2 b3 o1 o2 o3) b1 b2 b3 o1 o2 o3))
      D.length
      (selectCols (trainIdxOf mask b1 b2 b3 o1 o2 o3)
        (im2col4 data 0 b1 b2 b3 b4 o1 o2 o3 o4)).length hK
    rw [h1.1, h1.2]
  · have hf : (trainIdxOf mask b1 b2 b3 o1 o2 o3).any id = false := by
      simpa using htr
    have hc : (!((trainIdxOf mask b1 b2 b3 o1 o2 o3).any id)) = true := by simp [hf]
    rw [if_pos hc, if_pos hc]

/-- Witness for the amended C8 at a concrete input: a `1×1×1×1` slab with a
true mask, a one-atom dictionary and a constant solver. -/
theorem n_iter_one_unreweighted_witness :
    _processer (fun _ _ => [1]) [[[[2]]]] [[[true]]] [[[3]]] 1 1 1 1 0 0 0 0 [[1]] [[0]] 1 =
      unreweightedSolve (fun _ _ => [1]) [[[[2]]]] [[[true]]] 1 1 1 1 0 0 0 0 [[1]] :=
  n_iter_one_unreweighted (fun _ _ => [1]) [[[[2]]]] [[[true]]] [[[3]]] 1 1 1 1 0 0 0 0
    [[1]] [[0]] fun _ _ => rfl

/-- Counterexample to C8 as stated: at a concrete slab with a nonempty
training set, `_processer` with `n_iter = 0` does not return the result of a
single un-reweighted solve — the loop never assigns `arr`, so the function
fails with an unbound-name error (modelled as `none`) while the
un-reweighted solve returns an array. -/
theorem n_iter_zero_counterexample :
    _processer (fun _ _ => [1]) [[[[2]]]] [[[true]]] [[[3]]] 1 1 1 1 0 0 0 0 [[1]] [[0]] 0 ≠
      unreweightedSolve (fun _ _ => [1]) [[[[2]]]] [[[true]]] 1 1 1 1 0 0 0 0 [[1]] := by
  have hL : _processer (fun _ _ => [1]) [[[[2]]]] [[[true]]] [[[3]]] 1 1 1 1 0 0 0 0
      [[1]] [[0]] 0 = none := by
    norm_num [_processer, trainIdxOf, im2col3, windowStarts, get3, List.range_succ,
      List.count_cons, iterLoop, initState]
  have hR : unreweightedSolve (fun _ _ => [1]) [[[[2]]]] [[[true]]] 1 1 1 1 0 0 0 0 [[1]] =
      some [[[[1 / 2]]]] := by
    norm_num [unreweightedSolve, trainIdxOf, im2col3, im2col4, windowStarts, get3, get4,
      selectCols, processerTail, mulMV, reconWeights, expandCols, col2im4, zeros4,
      modify4, listModify, dotL, List.range_succ, List.count_cons]
  rw [hL, hR]
  simp

/-! ## Orchestration entry (`nlsam_denoise`, denoiser.py lines 23-179)

The model covers the eager shape checks (lines 68-75), the b0/DWI
bookkeeping, the neighbor/work-item construction (lines 104-128), and the
fate of the per-work-item loop (lines 138-153).  The external
`angular_neighbors` (repository code not in the provided source) is the
abstract parameter `angular`; per its interface it returns one neighbor
index list per input direction.  The loop body evaluates `param_alpha`
(line 148) and `param_D` (line 149), which are neither locals of
`nlsam_denoise` nor module-level names, so any iteration of the loop raises
`NameError`; name resolution is modelled against the module's actual name
environment. -/

inductive PyErr
  | shapeMask (dataShape maskShape : List ℕ)
  | shapeSigma (dataShape sigmaShape : List ℕ)
  | nameError (name : String)
  | broadcast
deriving DecidableEq

abbrev V3 := ℚ × ℚ × ℚ

/-- Names bound at module level in `denoiser.py`: the imports (lines 3-18)
and the module's own functions. -/
def moduleGlobals : List String :=
  ["np", "warnings", "time", "repeat", "Pool", "im2col_nd", "col2im_nd",
   "angular_neighbors", "lil_matrix", "spams",
   "nlsam_denoise", "greedy_set_finder", "processer", "_processer", "local_denoise"]

/-- The local names of `nlsam_denoise`: its parameters and every name
assigned in its body (lines 23-179). -/
def nlsamLocals : List String :=
  ["data", "sigma", "bvals", "bvecs", "block_size", "mask", "no_symmetry",
   "n_cores", "greedy_subsampler", "n_iter", "b0_thresh", "b0_loc", "num_b0s",
   "variance", "mean_b0", "dwis", "rest_of_b0s", "sym_bvecs", "neighbors",
   "orig_shape", "overlap", "b0", "indexes", "b0_block_size", "denoised_shape",
   "data_denoised", "to_denoise", "i", "idx", "dwi_idx", "divider",
   "b0_denoised", "data_denoised_insert", "n"]

/-- Python name resolution inside `nlsam_denoise`: a name resolves iff it
is a local of the function or a module-level global. -/
def resolves (name : String) : Bool :=
  nlsamLocals.contains name || moduleGlobals.contains name

/-- Number of b0 volumes: `len(np.where(bvals <= b0_thresh)[0])` (lines
77-78). -/
def b0Count (bvals : List ℚ) (t : ℚ) : ℕ :=
  (bvals.filter fun b => decide (b ≤ t)).length

/-- Number of DWI volumes (`bvals > b0_thresh`, line 87). -/
def dwiCount (bvals : List ℚ) (t : ℚ) : ℕ :=
  (bvals.filter fun b => decide (t < b)).length

/-- The DWI gradient vectors: `np.delete(bvecs, b0_loc, axis=0)` (lines
107-109), i.e. the rows whose b-value exceeds the threshold. -/
def dwiBvecs (bvals : List ℚ) (bvecs : List V3) (t : ℚ) : List V3 :=
  ((bvals.zip bvecs).filter fun p => decide (t < p.1)).map fun p => p.2

/-- `sym_bvecs` (lines 104-109): the DWI directions, doubled with their
antipodes unless symmetry is assumed. -/
def symBvecsOf (noSym : Bool) (bd : List V3) : List V3 :=
  if noSym then bd else bd ++ bd.map fun v => (-v.1, -v.2.1, -v.2.2)

/-- `neighbors` (line 111): the angular neighbor table over `sym_bvecs`
with `block_size[-1] - num_b0s` neighbors, indices reduced modulo the DWI
count, truncated to the DWI count. -/
def neighborsOf (angular : List V3 → ℕ → List (List ℕ)) (bvals : List ℚ)
    (bvecs : List V3) (blockLast : ℕ) (noSym : Bool) (t : ℚ) : List (List ℕ) :=
  ((angular (symBvecsOf noSym (dwiBvecs bvals bvecs t))
      (blockLast - min (b0Count bvals t) 1)).map
    (List.map fun x => x % dwiCount bvals t)).take (dwiCount bvals t)

/-- The work items (lines 123-128): `(i,) + tuple(neighbors[i])` for each
DWI direction, optionally reduced by `greedy_set_finder`. -/
def indexesOf (angular : List V3 → ℕ → List (List ℕ)) (bvals : List ℚ)
    (bvecs : List V3) (blockLast : ℕ) (noSym greedy : Bool) (t : ℚ) :
    List (Finset ℕ) :=
  let nb := neighborsOf angular bvals bvecs blockLast noSym t
  let idx0 := (List.range nb.length).map fun i => insert i (nb.getD i []).toFinset
  if greedy then greedy_set_finder idx0 else idx0

/-- The fate of `nlsam_denoise` after the shape checks.  With no work item
the loop is skipped and the run completes (degenerately).  With at least
one work item but no b0 volume, `to_denoise[..., 0] = np.copy(b0)` (line
142) fails broadcasting an empty b0 selection.  Otherwise evaluating the
`local_denoise` call's arguments (lines 145-153) resolves `param_alpha`,
which is unbound, raising `NameError`. -/
def nlsamRun (angular : List V3 → ℕ → List (List ℕ)) (bvals : List ℚ)
    (bvecs : List V3) (blockLast : ℕ) (noSym greedy : Bool) (t : ℚ) :
    Except PyErr Unit :=
  if (indexesOf angular bvals bvecs blockLast noSym greedy t).isEmpty then .ok ()
  else if min (b0Count bvals t) 1 = 0 then .error .broadcast
  else if resolves "param_alpha" then .ok ()
  else .error (.nameError "param_alpha")

/-- `nlsam_denoise` (lines 23-179): the eager shape checks of lines 68-75,
then the rest of the run. -/
def nlsam_denoise (angular : List V3 → ℕ → List (List ℕ))
    (dataShape sigmaShape : List ℕ) (maskShape : Option (List ℕ))
    (bvals : List ℚ) (bvecs : List V3) (blockLast : ℕ)
    (noSymmetry greedy : Bool) (b0Thresh : ℚ) : Except PyErr Unit :=
  if dataShape.dropLast ≠ maskShape.getD dataShape.dropLast then
    .error (.shapeMask dataShape (maskShape.getD dataShape.dropLast))
  else if dataShape.dropLast ≠ sigmaShape then
    .error (.shapeSigma dataShape sigmaShape)
  else nlsamRun angular bvals bvecs blockLast noSymmetry greedy b0Thresh

/-- A run outcome is a shape-mismatch error exactly when it is one of the
two eager shape checks' errors. -/
def isShapeErr : Except PyErr Unit → Prop
  | .error (.shapeMask _ _) => True
  | .error (.shapeSigma _ _) => True
  | _ => False

theorem nlsamRun_not_shapeErr (angular : List V3 → ℕ → List (List ℕ)) (bvals : List ℚ)
    (bvecs : List V3) (blockLast : ℕ) (noSym greedy : Bool) (t : ℚ) :
    ¬ isShapeErr (nlsamRun angular bvals bvecs blockLast noSym greedy t) := by
  rw [nlsamRun]
  split
  · exact not_false
  · split
    · exact not_false
    · split
      · exact not_false
      · exact not_false

/-- **C7**: Shape-mismatch fail-fast — a mask shape (when given) or sigma
shape differing from the leading axes of the data volume makes
`nlsam_denoise` return the corresponding shape-mismatch error immediately
(the checks precede all computation, so there is no partial output), and
when the shapes agree (or the mask is omitted) the run never produces a
shape error. -/
theorem shape_mismatch_fail_fast (angular : List V3 → ℕ → List (List ℕ))
    (dataShape sigmaShape : List ℕ) (maskShape : Option (List ℕ))
    (bvals : List ℚ) (bvecs : List V3) (blockLast : ℕ)
    (noSymmetry greedy : Bool) (b0Thresh : ℚ) :
    (∀ ms, maskShape = some ms → dataShape.dropLast ≠ ms →
      nlsam_denoise angular dataShape sigmaShape maskShape bvals bvecs blockLast
        noSymmetry greedy b0Thresh = .error (.shapeMask dataShape ms)) ∧
    ((maskShape = none ∨ maskShape = some dataShape.dropLast) →
      dataShape.dropLast ≠ sigmaShape →
      nlsam_denoise angular dataShape sigmaShape maskShape bvals bvecs blockLast
        noSymmetry greedy b0Thresh = .error (.shapeSigma dataShape sigmaShape)) ∧
    ((maskShape = none ∨ maskShape = some dataShape.dropLast) →
      dataShape.dropLast = sigmaShape →
      ¬ isShapeErr (nlsam_denoise angular dataShape sigmaShape maskShape bvals bvecs
        blockLast noSymmetry greedy b0Thresh)) := by
  refine ⟨?_, ?_, ?_⟩
  · intro ms hms hne
    subst hms
    rw [nlsam_denoise, Option.getD_some, if_pos hne]
  · intro hmask hne
    have hgetD : maskShape.getD dataShape.dropLast = dataShape.dropLast := by
      rcases hmask with rfl | rfl
      · rfl
      · exact Option.getD_some
    rw [nlsam_denoise, hgetD, if_neg (by simp), if_pos hne]
  · intro hmask heq
    have hgetD : maskShape.getD dataShape.dropLast = dataShape.dropLast := by
      rcases hmask with rfl | rfl
      · rfl
      · exact Option.getD_some
    rw [nlsam_denoise, hgetD, if_neg (by simp), if_neg (by simp [heq])]
    exact nlsamRun_not_shapeErr angular bvals bvecs blockLast noSymmetry greedy b0Thresh

/-- Witness for C7 at concrete inputs: a `2×2` mask against `2×3×4` data
fails with the mask shape error; matching shapes produce no shape error. -/
theorem shape_mismatch_fail_fast_witness :
    nlsam_denoise (fun vs _ => vs.map fun _ => []) [2, 3, 4] [2, 3] (some [2, 2])
      [0] [(0, 0, 0)] 2 false true 10 = .error (.shapeMask [2, 3, 4] [2, 2]) ∧
    ¬ isShapeErr (nlsam_denoise (fun vs _ => vs.map fun _ => []) [2, 3, 4] [2, 3] none
      [0] [(0, 0, 0)] 2 false true 10) :=
  ⟨(shape_mismatch_fail_fast (fun vs _ => vs.map fun _ => []) [2, 3, 4] [2, 3]
      (some [2, 2]) [0] [(0, 0, 0)] 2 false true 10).1 [2, 2] rfl (by decide),
    (shape_mismatch_fail_fast (fun vs _ => vs.map fun _ => []) [2, 3, 4] [2, 3]
      none [0] [(0, 0, 0)] 2 false true 10).2.2 (Or.inl rfl) rfl⟩

theorem findBest_ne_none (sets : List (Finset ℕ)) (u : Finset ℕ)
    (hne : u.Nonempty) (hsub : u ⊆ listUnion sets) : (findBest sets u).2 ≠ none := by
  intro hb
  rcases hne with ⟨x, hx⟩
  rcases (mem_listUnion sets x).mp (hsub hx) with ⟨s, hs, hxs⟩
  rcases List.get_of_mem hs with ⟨⟨j, hj⟩, rfl⟩
  have hcard := findBest_none sets u hb j hj
  rw [List.getD_eq_getElem sets ∅ hj] at hcard
  rw [List.get_eq_getElem] at hxs
  have hmem : x ∈ sets[j] ∩ u := Finset.mem_inter.mpr ⟨hxs, hx⟩
  rw [Finset.card_eq_zero.mp hcard] at hmem
  simp at hmem

theorem greedyLoop_ne_nil (sets : List (Finset ℕ)) (u : Finset ℕ)
    (hne : u.Nonempty) (hsub : u ⊆ listUnion sets) : greedyLoop sets u ≠ [] := by
  rw [greedyLoop]
  have hu : ¬ u = ∅ := Finset.nonempty_iff_ne_empty.mp hne
  simp only [hu, dif_neg, not_false_iff]
  split
  · next hb => exact absurd hb (findBest_ne_none sets u hne hsub)
  · next i hb => simp

theorem filter_zip_fst_length {α β : Type} (p : α → Bool) :
    ∀ (l1 : List α) (l2 : List β), l1.length = l2.length →
      ((l1.zip l2).filter fun q => p q.1).length = (l1.filter p).length := by
  intro l1
  induction l1 with
  | nil => intro l2 h; simp
  | cons a t ih =>
    intro l2 h
    cases l2 with
    | nil => simp at h
    | cons b t2 =>
      have h2 : t.length = t2.length := by simpa using h
      simp only [List.zip_cons_cons, List.filter_cons]
      by_cases hp : p a
      · simp [hp, ih t2 h2]
      · simp [hp, ih t2 h2]

theorem indexesOf_ne_nil (angular : List V3 → ℕ → List (List ℕ)) (bvals : List ℚ)
    (bvecs : List V3) (blockLast : ℕ) (noSym greedy : Bool) (t : ℚ)
    (hangular : ∀ vs k, (angular vs k).length = vs.length)
    (hlen : bvals.length = bvecs.length)
    (hdwi : 0 < dwiCount bvals t) :
    indexesOf angular bvals bvecs blockLast noSym greedy t ≠ [] := by
  have hbd : (dwiBvecs bvals bvecs t).length = dwiCount bvals t := by
    rw [dwiBvecs, List.length_map, dwiCount]
    exact filter_zip_fst_length (fun x => decide (t < x)) bvals bvecs hlen
  have hsym : dwiCount bvals t ≤ (symBvecsOf noSym (dwiBvecs bvals bvecs t)).length := by
    cases noSym <;> simp [symBvecsOf, hbd] <;> omega
  have hnb : (neighborsOf angular bvals bvecs blockLast noSym t).length
      = dwiCount bvals t := by
    rw [neighborsOf, List.length_take, List.length_map, hangular]
    omega
  rw [indexesOf]
  set nb := neighborsOf angular bvals bvecs blockLast noSym t with hnbdef
  have hidx : ((List.range nb.length).map fun i => insert i (nb.getD i []).toFinset).length
      = dwiCount bvals t := by simp [hnb]
  by_cases hg : greedy
  · rw [if_pos hg]
    apply greedyLoop_ne_nil
    · refine ⟨0, ?_⟩
      rw [mem_listUnion]
      refine ⟨insert 0 (nb.getD 0 []).toFinset, ?_, Finset.mem_insert_self 0 _⟩
      apply List.mem_map.mpr
      exact ⟨0, by rw [List.mem_range]; omega, rfl⟩
    · exact Finset.Subset.refl _
  · rw [if_neg hg]
    intro hcon
    rw [hcon] at hidx
    simp at hidx
    omega

/-- **C10**: Unbound solver parameter maps — `param_alpha` and `param_D`
resolve to no local or module-level name, so every input that passes the
shape checks and reaches a nonempty per-work-item loop (at least one b0 and
one DWI direction) makes `nlsam_denoise` fail with an unbound-name error,
and no such call returns a denoised volume. -/
theorem unbound_solver_params (angular : List V3 → ℕ → List (List ℕ))
    (dataShape sigmaShape : List ℕ) (maskShape : Option (List ℕ))
    (bvals : List ℚ) (bvecs : List V3) (blockLast : ℕ)
    (noSymmetry greedy : Bool) (b0Thresh : ℚ)
    (hmask : maskShape = none ∨ maskShape = some dataShape.dropLast)
    (hsigma : dataShape.dropLast = sigmaShape)
    (hangular : ∀ vs k, (angular vs k).length = vs.length)
    (hlen : bvals.length = bvecs.length)
    (hb0 : ∃ b ∈ bvals, b ≤ b0Thresh)
    (hdwi : ∃ b ∈ bvals, b0Thresh < b) :
    resolves "param_alpha" = false ∧ resolves "param_D" = false ∧
    nlsam_denoise angular dataShape sigmaShape maskShape bvals bvecs blockLast
      noSymmetry greedy b0Thresh = .error (.nameError "param_alpha") := by
  refine ⟨rfl, rfl, ?_⟩
  have hgetD : maskShape.getD dataShape.dropLast = dataShape.dropLast := by
    rcases hmask with rfl | rfl
    · rfl
    · exact Option.getD_some
  rw [nlsam_denoise, hgetD, if_neg (by simp), if_neg (by simp [hsigma])]
  have hdwi' : 0 < dwiCount bvals b0Thresh := by
    rcases hdwi with ⟨b, hbm, hbt⟩
    rw [dwiCount]
    have : b ∈ bvals.filter fun b => decide (b0Thresh < b) :=
      List.mem_filter.mpr ⟨hbm, by simpa using hbt⟩
    exact List.length_pos.mpr fun hc => by rw [hc] at this; simp at this
  have hb0' : 0 < b0Count bvals b0Thresh := by
    rcases hb0 with ⟨b, hbm, hbt⟩
    rw [b0Count]
    have : b ∈ bvals.filter fun b => decide (b ≤ b0Thresh) :=
      List.mem_filter.mpr ⟨hbm, by simpa using hbt⟩
    exact List.length_pos.mpr fun hc => by rw [hc] at this; simp at this
  have hne := indexesOf_ne_nil angular bvals bvecs blockLast noSymmetry greedy b0Thresh
    hangular hlen hdwi'
  rw [nlsamRun]
  rw [if_neg (by simpa [List.isEmpty_iff] using hne)]
  rw [if_neg (by omega)]
  have hra : resolves "param_alpha" = false := rfl
  rw [if_neg (by simp [hra])]

/-- Witness for C10 at a concrete input: one b0 (`bval 0`) and one DWI
(`bval 1000`), matching shapes — the run fails resolving `param_alpha`. -/
theorem unbound_solver_params_witness :
    resolves "param_alpha" = false ∧ resolves "param_D" = false ∧
    nlsam_denoise (fun vs _ => vs.map fun _ => []) [1, 1, 1, 2] [1, 1, 1] none
      [0, 1000] [(0, 0, 0), (1, 0, 0)] 2 false true 10 =
      .error (.nameError "param_alpha") :=
  unbound_solver_params (fun vs _ => vs.map fun _ => []) [1, 1, 1, 2] [1, 1, 1] none
    [0, 1000] [(0, 0, 0), (1, 0, 0)] 2 false true 10 (Or.inl rfl) rfl
    (fun vs _ => by simp) rfl ⟨0, by simp, by norm_num⟩ ⟨1000, by simp, by norm_num⟩

end Nlsam
